import Mathlib

/-
Verification of the computation-graph engine in src/solution.py.

Shallow embedding conventions:
* Python node objects are identified by natural-number ids.  Two ids are
  equal exactly when the two Python objects are the same object, so Python
  identity comparison on nodes is id equality.
* The static shape of a graph (the node list self.V, each node's kind and
  its input_lst / output_lst edge lists) is collected in the structure
  Graph.  The mutable per-run data (each node's value and derivative
  attribute, and the graph's self.order field) is collected in PyState and
  threaded explicitly; a Python method that mutates and can also raise is
  modelled as returning the updated state together with an optional error,
  because in Python the mutations performed before an exception persist.
* Numbers are Int (the demo uses machine ints; no overflow is involved).
  A node attribute that may be unset (value, derivative) is an Option Int;
  Python raises TypeError when None flows into + or *, AttributeError when
  the derivative attribute was never assigned, IndexError on out-of-range
  subscripts, and RecursionError when the DFS recursion has no bound.
  These are the PyErr constructors; the code has no other failure modes.
* The recursive dfs in _calc_topological_order is given an explicit fuel
  argument standing for the remaining Python call-stack budget: one unit
  is consumed per nested dfs call, and running out of fuel models
  RecursionError.  A run that succeeds for some fuel is exactly a Python
  run that terminates.
* The per-node visited flags (set to False by Graph.append and flipped to
  True when a dfs call on the node finishes) are modelled as the set of
  flagged nodes, the visited component of St.  The stack accumulator is
  kept with its most recently appended element first, so St.stack is the
  reverse of the Python stack list; since the Python code finally reverses
  the stack, St.stack of the final state is Graph.order itself.
-/

namespace CompGraph

/-- Kind of a node: the two leaf classes Placeholder and Variable, and the
two concrete BinaryOperation subclasses AddOperation and MultiplyOperation. -/
inductive NodeKind where
  | placeholder
  | var
  | add
  | mul
deriving DecidableEq

/-- Exceptions the Python code can raise: the explicit
ValueError in Graph.append, TypeError (None used in arithmetic, or
subscripting the None order), AttributeError (reading a never-assigned
derivative attribute), IndexError (subscript out of range), and
RecursionError (unbounded DFS recursion). -/
inductive PyErr where
  | valueError : String → PyErr
  | typeError
  | attributeError
  | indexError
  | recursionError
deriving DecidableEq, Repr

/-- Equality of Except results is decidable when it is on both sides;
needed so that concrete runs can be checked by evaluation. -/
instance {ε α : Type} [DecidableEq ε] [DecidableEq α] : DecidableEq (Except ε α) := fun x y =>
  match x, y with
  | .ok a, .ok b =>
    if h : a = b then .isTrue (by rw [h]) else .isFalse (fun hc => h (by injection hc))
  | .ok _, .error _ => .isFalse (fun hc => Except.noConfusion hc)
  | .error _, .ok _ => .isFalse (fun hc => Except.noConfusion hc)
  | .error e, .error f =>
    if h : e = f then .isTrue (by rw [h]) else .isFalse (fun hc => h (by injection hc))

/-- Static shape of a Graph: the registered node list self.V in
registration order, and each node's kind, input_lst and output_lst. -/
structure Graph where
  V : List Nat
  kind : Nat → NodeKind
  inputs : Nat → List Nat
  out : Nat → List Nat

/-- State of one _calc_topological_order run: the set of nodes whose
visited flag is True, and the stack accumulator (most recently appended
element first, i.e. already in final-order orientation). -/
structure St where
  visited : List Nat
  stack : List Nat
deriving DecidableEq

/-- Mutable run data: every node's value and derivative attribute and the
graph's self.order field (None until computed). -/
structure PyState where
  value : Nat → Option Int
  deriv : Nat → Option Int
  order : Option (List Nat)

/-- Pattern shared by the two loops of _calc_topological_order
(the neighbor loop inside dfs and the seed loop over self.V):
walk a node list, skipping nodes whose visited flag is set and running the
given action (a dfs call) on the others, threading the state. -/
def visitFold (f : Nat → St → Option St) : List Nat → St → Option St
  | [], s => some s
  | v :: vs, s =>
    if v ∈ s.visited then visitFold f vs s
    else
      match f v s with
      | none => none
      | some t => visitFold f vs t

/-- The recursive dfs of _calc_topological_order: first recurse into every
not-yet-visited node of output_lst, then append the node to the stack and
set its visited flag.  fuel is the remaining recursion budget; none models
RecursionError. -/
def dfs (g : Graph) : Nat → Nat → St → Option St
  | 0, _, _ => none
  | fuel + 1, u, s =>
    match visitFold (fun v t => dfs g fuel v t) (g.out u) s with
    | none => none
    | some t => some ⟨u :: t.visited, u :: t.stack⟩

/-- Graph._calc_topological_order: seed dfs from every unvisited node of
self.V in registration order; the returned list is the final self.order
(the Python stack reversed, which by the stack orientation of St is the
final stack field itself). -/
def Graph.calc_topological_order (g : Graph) (fuel : Nat) : Option (List Nat) :=
  match visitFold (fun v t => dfs g fuel v t) g.V ⟨[], []⟩ with
  | none => none
  | some s => some s.stack

/-- Python truthiness of the self.order field as used by
`if self.order:` in append and `if not self.order:` in forward:
None is falsy and so is the empty list. -/
def orderTruthy : Option (List Nat) → Bool
  | none => false
  | some l => !l.isEmpty

/-- Graph.append: raises ValueError when self.order is truthy, otherwise
appends the node to self.V (returning the new node list; the node's
visited flag is also reset, which the per-run visited model makes
implicit). -/
def Graph.append (g : Graph) (st : PyState) (i : Nat) : Except PyErr (List Nat) :=
  if orderTruthy st.order then
    .error (.valueError "Cannot add extra node after building the graph")
  else
    .ok (g.V ++ [i])

/-- One node's forward() step, dispatched on its kind as Python method
dispatch does.  Placeholder.forward and Variable.forward are the inherited
no-op Node.forward.  AddOperation.forward sets
value = input_lst[0].value + input_lst[1].value and
MultiplyOperation.forward the product; subscripting a too-short input_lst
raises IndexError and None in the arithmetic raises TypeError. -/
def nodeForward (g : Graph) (i : Nat) (val : Nat → Option Int) :
    Except PyErr (Nat → Option Int) :=
  match g.kind i with
  | .placeholder => .ok val
  | .var => .ok val
  | .add =>
    match g.inputs i with
    | a :: b :: _ =>
      match val a, val b with
      | some x, some y => .ok (fun j => if j = i then some (x + y) else val j)
      | _, _ => .error .typeError
    | _ => .error .indexError
  | .mul =>
    match g.inputs i with
    | a :: b :: _ =>
      match val a, val b with
      | some x, some y => .ok (fun j => if j = i then some (x * y) else val j)
      | _, _ => .error .typeError
    | _ => .error .indexError

/-- The evaluation loop of Graph.forward: call node.forward() on every
node of the order in sequence.  On an exception the values assigned so far
persist and the error propagates. -/
def runForwardNodes (g : Graph) :
    List Nat → (Nat → Option Int) → (Nat → Option Int) × Option PyErr
  | [], val => (val, none)
  | i :: rest, val =>
    match nodeForward g i val with
    | .error e => (val, some e)
    | .ok val' => runForwardNodes g rest val'

/-- Graph.forward: compute the order if self.order is falsy, evaluate
every node of the order, then return self.order[-1].value (IndexError on
an empty order).  Returns the mutated state together with the outcome; the
returned Python value is itself an Option Int because a node's value
attribute may still be None. -/
def Graph.forward (g : Graph) (fuel : Nat) (st : PyState) :
    PyState × Except PyErr (Option Int) :=
  match (if orderTruthy st.order then st.order else g.calc_topological_order fuel) with
  | none => (st, .error .recursionError)
  | some l =>
    match runForwardNodes g l st.value with
    | (val', some e) => (⟨val', st.deriv, some l⟩, .error e)
    | (val', none) =>
      match l.getLast? with
      | none => (⟨val', st.deriv, some l⟩, .error .indexError)
      | some root => (⟨val', st.deriv, some l⟩, .ok (val' root))

/-- The partial_derivative method of the concrete operation kinds.
AddOperation returns the constant 1.  MultiplyOperation returns
other_node.value where other_node is input_lst[0] if the argument equals
(is the same object as) input_lst[1] and input_lst[1] otherwise; the
result is the raw attribute, possibly None.  The leaf kinds inherit the
BinaryOperation stub that returns None (never invoked by backward, which
filters on isinstance(node, BinaryOperation)). -/
def partial_derivative (g : Graph) (val : Nat → Option Int) (i n : Nat) :
    Except PyErr (Option Int) :=
  match g.kind i with
  | .add => .ok (some 1)
  | .mul =>
    match g.inputs i with
    | a :: b :: _ => .ok (if n = b then val a else val b)
    | _ => .error .indexError
  | _ => .ok none

/-- One assignment node.derivative = self.partial_derivative(node) * self.derivative
inside BinaryOperation.backward, for operation node i and input node n.
Python evaluation order: the partial derivative is computed first, then
the self.derivative attribute is read (AttributeError if never assigned),
then the product is formed (TypeError if the partial is None). -/
def backwardAssign (g : Graph) (val : Nat → Option Int) (i : Nat)
    (deriv : Nat → Option Int) (n : Nat) : (Nat → Option Int) × Option PyErr :=
  match partial_derivative g val i n with
  | .error e => (deriv, some e)
  | .ok p =>
    match deriv i with
    | none => (deriv, some .attributeError)
    | some d =>
      match p with
      | none => (deriv, some .typeError)
      | some pv => ((fun j => if j = n then some (pv * d) else deriv j), none)

/-- The loop of BinaryOperation.backward over self.input_lst, threading
the derivative store and stopping at the first exception. -/
def backwardStepLoop (g : Graph) (val : Nat → Option Int) (i : Nat) :
    List Nat → (Nat → Option Int) → (Nat → Option Int) × Option PyErr
  | [], deriv => (deriv, none)
  | n :: ns, deriv =>
    match backwardAssign g val i deriv n with
    | (deriv', some e) => (deriv', some e)
    | (deriv', none) => backwardStepLoop g val i ns deriv'

/-- BinaryOperation.backward, the shared chain-rule step: for each node in
self.input_lst set node.derivative = partial_derivative(node) * self.derivative. -/
def BinaryOperation.backward (g : Graph) (val : Nat → Option Int) (i : Nat)
    (deriv : Nat → Option Int) : (Nat → Option Int) × Option PyErr :=
  backwardStepLoop g val i (g.inputs i) deriv

/-- The isinstance(node, BinaryOperation) test of Graph.backward: exactly
the two concrete operation kinds. -/
def isBinaryOperation : NodeKind → Bool
  | .add => true
  | .mul => true
  | .placeholder => false
  | .var => false

/-- The loop of Graph.backward over reversed(self.order): invoke the
chain-rule step on every BinaryOperation node, skipping leaves. -/
def backwardLoop (g : Graph) (val : Nat → Option Int) :
    List Nat → (Nat → Option Int) → (Nat → Option Int) × Option PyErr
  | [], deriv => (deriv, none)
  | i :: rest, deriv =>
    if isBinaryOperation (g.kind i) then
      match BinaryOperation.backward g val i deriv with
      | (deriv', some e) => (deriv', some e)
      | (deriv', none) => backwardLoop g val rest deriv'
    else backwardLoop g val rest deriv

/-- Graph.backward: self.order[-1].derivative = 1, then walk the order in
reverse invoking the chain-rule step on every BinaryOperation.  When
self.order is still None the subscript None[-1] raises TypeError (there is
no precondition check in the code); on an empty order it raises
IndexError. -/
def Graph.backward (g : Graph) (st : PyState) : PyState × Option PyErr :=
  match st.order with
  | none => (st, some .typeError)
  | some [] => (st, some .indexError)
  | some (x :: xs) =>
    let root := (x :: xs).getLastD 0
    let seeded : Nat → Option Int := fun j => if j = root then some 1 else st.deriv j
    let res := backwardLoop g st.value ((x :: xs).reverse) seeded
    (⟨st.value, res.1, st.order⟩, res.2)

/-
Concrete graphs used by the example claim, the counterexamples and the
witnesses.  Node ids follow registration order.
-/

/-- The demo graph of the repository: ids 0 = a, 1 = b, 2 = c, 3 = d
(Variables), 4 = u = MultiplyOperation(b, c), 5 = v = AddOperation(a, u),
6 = J = MultiplyOperation(d, v). -/
def gEx : Graph where
  V := [0, 1, 2, 3, 4, 5, 6]
  kind := fun i =>
    match i with
    | 4 => .mul
    | 5 => .add
    | 6 => .mul
    | _ => .var
  inputs := fun i =>
    match i with
    | 4 => [1, 2]
    | 5 => [0, 4]
    | 6 => [3, 5]
    | _ => []
  out := fun i =>
    match i with
    | 0 => [5]
    | 1 => [4]
    | 2 => [4]
    | 3 => [6]
    | 4 => [5]
    | 5 => [6]
    | _ => []

/-- State of gEx after a.set_value(5), b.set_value(3), c.set_value(2),
d.set_value(3), before any forward pass. -/
def stEx : PyState where
  value := fun i =>
    match i with
    | 0 => some 5
    | 1 => some 3
    | 2 => some 2
    | 3 => some 3
    | _ => none
  deriv := fun _ => none
  order := none

/-- Rank function witnessing acyclicity of gEx (every out-edge increases it). -/
def rEx : Nat → Nat := fun i => i

/-
Lemmas about the DFS of _calc_topological_order.
-/

/-- A dfs call only extends the visited set and the stack, and extends
both by the same new elements. -/
def Ext (s s' : St) : Prop :=
  ∃ p, s'.visited = p ++ s.visited ∧ s'.stack = p ++ s.stack

theorem Ext.refl (s : St) : Ext s s :=
  ⟨[], rfl, rfl⟩

theorem Ext.trans {s t u : St} (h1 : Ext s t) (h2 : Ext t u) : Ext s u := by
  obtain ⟨p, hp1, hp2⟩ := h1
  obtain ⟨q, hq1, hq2⟩ := h2
  exact ⟨q ++ p, by rw [hq1, hp1, List.append_assoc], by rw [hq2, hp2, List.append_assoc]⟩

theorem Ext.visited_eq_stack {s s' : St} (h : Ext s s') (he : s.visited = s.stack) :
    s'.visited = s'.stack := by
  obtain ⟨p, h1, h2⟩ := h
  rw [h1, h2, he]

theorem visitFold_extend (f : Nat → St → Option St)
    (Hf : ∀ u s s', f u s = some s' → Ext s s') :
    ∀ l s s', visitFold f l s = some s' → Ext s s' := by
  intro l
  induction l with
  | nil =>
    intro s s' h
    cases h
    exact Ext.refl s
  | cons v vs ih =>
    intro s s' h
    by_cases hv : v ∈ s.visited
    · rw [visitFold, if_pos hv] at h
      exact ih s s' h
    · rw [visitFold, if_neg hv] at h
      cases hfv : f v s with
      | none => rw [hfv] at h; cases h
      | some t =>
        rw [hfv] at h
        exact (Hf v s t hfv).trans (ih t s' h)

theorem dfs_extend (g : Graph) :
    ∀ fuel u s s', dfs g fuel u s = some s' → Ext s s' := by
  intro fuel
  induction fuel with
  | zero => intro u s s' h; simp [dfs] at h
  | succ fuel ih =>
    intro u s s' h
    rw [dfs] at h
    cases hfold : visitFold (fun v t => dfs g fuel v t) (g.out u) s with
    | none => rw [hfold] at h; cases h
    | some t =>
      rw [hfold] at h
      cases h
      obtain ⟨p, h1, h2⟩ := visitFold_extend _ (fun v s1 s1' hv => ih v s1 s1' hv) _ _ _ hfold
      exact ⟨u :: p, by rw [h1]; rfl, by rw [h2]; rfl⟩

theorem dfs_mem (g : Graph) (fuel u : Nat) (s s' : St)
    (h : dfs g fuel u s = some s') : u ∈ s'.stack := by
  cases fuel with
  | zero => simp [dfs] at h
  | succ fuel =>
    rw [dfs] at h
    cases hfold : visitFold (fun v t => dfs g fuel v t) (g.out u) s with
    | none => rw [hfold] at h; cases h
    | some t =>
      rw [hfold] at h
      cases h
      exact List.mem_cons_self u _

theorem visitFold_mem (f : Nat → St → Option St)
    (Hext : ∀ u s s', f u s = some s' → Ext s s')
    (Hmem : ∀ u s s', f u s = some s' → u ∈ s'.stack) :
    ∀ l s s', visitFold f l s = some s' → s.visited = s.stack →
      ∀ v ∈ l, v ∈ s'.stack := by
  intro l
  induction l with
  | nil => intro s s' h he v hv; cases hv
  | cons w ws ih =>
    intro s s' h he v hv
    by_cases hw : w ∈ s.visited
    · rw [visitFold, if_pos hw] at h
      rcases List.mem_cons.mp hv with rfl | hv
      · obtain ⟨p, _, h2⟩ := visitFold_extend f Hext ws s s' h
        rw [h2]
        exact List.mem_append_right p (he ▸ hw)
      · exact ih s s' h he v hv
    · rw [visitFold, if_neg hw] at h
      cases hft : f w s with
      | none => rw [hft] at h; cases h
      | some t =>
        rw [hft] at h
        have het : t.visited = t.stack := (Hext w s t hft).visited_eq_stack he
        rcases List.mem_cons.mp hv with rfl | hv
        · obtain ⟨p, _, h2⟩ := visitFold_extend f Hext ws t s' h
          rw [h2]
          exact List.mem_append_right p (Hmem v s t hft)
        · exact ih t s' h het v hv

/-- Every registered node occurs in a successfully computed order. -/
theorem calc_mem (g : Graph) (fuel : Nat) (ord : List Nat)
    (h : g.calc_topological_order fuel = some ord) : ∀ v ∈ g.V, v ∈ ord := by
  rw [Graph.calc_topological_order] at h
  cases hfold : visitFold (fun v t => dfs g fuel v t) g.V ⟨[], []⟩ with
  | none => rw [hfold] at h; cases h
  | some s =>
    rw [hfold] at h
    cases h
    exact visitFold_mem _ (fun u s1 s1' => dfs_extend g fuel u s1 s1')
      (fun u s1 s1' => dfs_mem g fuel u s1 s1') g.V ⟨[], []⟩ s hfold rfl

/-- Central invariant of the stack accumulator (in final-order
orientation): every element's output neighbors occur strictly later in
the list. -/
def stackClosed (g : Graph) : List Nat → Prop
  | [] => True
  | u :: rest => (∀ v ∈ g.out u, v ∈ rest) ∧ stackClosed g rest

theorem stackClosed_mem (g : Graph) :
    ∀ {m : List Nat}, stackClosed g m → ∀ {a}, a ∈ m → ∀ {x}, x ∈ g.out a → x ∈ m := by
  intro m
  induction m with
  | nil => intro _ a ha; cases ha
  | cons w t ih =>
    intro h a ha x hx
    rcases List.mem_cons.mp ha with rfl | ha
    · exact List.mem_cons_of_mem _ (h.1 x hx)
    · exact List.mem_cons_of_mem _ (ih h.2 ha hx)

theorem stackClosed_of_append (g : Graph) :
    ∀ (p m : List Nat), stackClosed g (p ++ m) → stackClosed g m := by
  intro p
  induction p with
  | nil => intro m h; exact h
  | cons w p' ih => intro m h; exact ih m h.2

/-- A node of the stack never has an element placed before it (or itself)
among its output neighbors. -/
theorem stackClosed_not_out_of_later (g : Graph) {i : Nat} {rest : List Nat}
    (hnd : (i :: rest).Nodup) (hsc : stackClosed g (i :: rest))
    {a : Nat} (ha : a ∈ i :: rest) (hout : i ∈ g.out a) : False := by
  have hi : i ∉ rest := (List.nodup_cons.mp hnd).1
  rcases List.mem_cons.mp ha with heq | ha
  · rw [heq] at hout
    exact hi (hsc.1 i hout)
  · exact hi (stackClosed_mem g hsc.2 ha hout)

/-- The last element of a stack satisfying the invariant has no output
neighbors: it is a sink of the graph. -/
theorem stackClosed_getLast (g : Graph) :
    ∀ {l : List Nat}, stackClosed g l → ∀ {z}, l.getLast? = some z → g.out z = [] := by
  intro l
  induction l with
  | nil => intro _ z hz; cases hz
  | cons w rest ih =>
    intro hsc z hz
    cases rest with
    | nil =>
      have hzw : z = w := by
        simp only [List.getLast?_singleton, Option.some.injEq] at hz
        exact hz.symm
      subst hzw
      cases hout : g.out z with
      | nil => rfl
      | cons a as =>
        exact absurd (hsc.1 a (by rw [hout]; exact List.mem_cons_self _ _))
          (List.not_mem_nil a)
    | cons y ys =>
      exact ih hsc.2 (by rw [List.getLast?_cons_cons] at hz; exact hz)

/-- In a nodup stack satisfying the invariant, every output edge goes
strictly forward in list position. -/
theorem stackClosed_indexOf (g : Graph) :
    ∀ {l : List Nat}, l.Nodup → stackClosed g l → ∀ {u}, u ∈ l → ∀ {v}, v ∈ g.out u →
      l.indexOf u < l.indexOf v := by
  intro l
  induction l with
  | nil => intro _ _ u hu; cases hu
  | cons w rest ih =>
    intro hnd hsc u hu v hv
    have hnd' := List.nodup_cons.mp hnd
    rcases List.mem_cons.mp hu with rfl | hu
    · have hvrest : v ∈ rest := hsc.1 v hv
      have hvw : u ≠ v := fun h => hnd'.1 (h ▸ hvrest)
      rw [List.indexOf_cons_self, List.indexOf_cons_ne _ hvw]
      exact Nat.succ_pos _
    · have hvrest : v ∈ rest := stackClosed_mem g hsc.2 hu hv
      have huw : w ≠ u := fun h => hnd'.1 (h ▸ hu)
      have hvw : w ≠ v := fun h => hnd'.1 (h ▸ hvrest)
      rw [List.indexOf_cons_ne _ huw, List.indexOf_cons_ne _ hvw]
      exact Nat.succ_lt_succ (ih hnd'.2 hsc.2 hu hv)

/-- Invariant carried through the order computation: the visited set and
the stack coincide, the stack has no duplicates, it satisfies the
forward-edge invariant, and it only holds registered nodes. -/
def Inv (g : Graph) (s : St) : Prop :=
  s.visited = s.stack ∧ s.stack.Nodup ∧ stackClosed g s.stack ∧ ∀ x ∈ s.stack, x ∈ g.V

/-- Postcondition of one successful dfs call on an unvisited node u: the
invariant is preserved and the stack grows by a block of new nodes that
contains u, consists of registered nodes, and whose ranks are all at
least the rank of u. -/
def DfsPost (g : Graph) (r : Nat → Nat) (u : Nat) (s s' : St) : Prop :=
  Inv g s' ∧ ∃ p, s'.visited = p ++ s.visited ∧ s'.stack = p ++ s.stack ∧
    u ∈ p ∧ ∀ x ∈ p, r u ≤ r x ∧ x ∈ g.V

theorem visitFold_sound (g : Graph) (r : Nat → Nat) (f : Nat → St → Option St)
    (Hf : ∀ u s s', f u s = some s' → u ∈ g.V → u ∉ s.stack → Inv g s → DfsPost g r u s s') :
    ∀ l s s', visitFold f l s = some s' → (∀ v ∈ l, v ∈ g.V) → Inv g s →
      Inv g s' ∧ (∀ v ∈ l, v ∈ s'.stack) ∧
      ∃ p, s'.visited = p ++ s.visited ∧ s'.stack = p ++ s.stack ∧
        ∀ x ∈ p, (∃ v ∈ l, r v ≤ r x) ∧ x ∈ g.V := by
  intro l
  induction l with
  | nil =>
    intro s s' h _ hs
    cases h
    exact ⟨hs, by simp, [], rfl, rfl, by simp⟩
  | cons w ws ih =>
    intro s s' h hl hs
    by_cases hw : w ∈ s.visited
    · rw [visitFold, if_pos hw] at h
      obtain ⟨hs', hmem, p, h1, h2, hp⟩ := ih s s' h (fun v hv => hl v (List.mem_cons_of_mem _ hv)) hs
      refine ⟨hs', ?_, p, h1, h2, ?_⟩
      · intro v hv
        rcases List.mem_cons.mp hv with rfl | hv
        · rw [h2]
          exact List.mem_append_right p (hs.1 ▸ hw)
        · exact hmem v hv
      · intro x hx
        obtain ⟨⟨v, hv, hrv⟩, hxV⟩ := hp x hx
        exact ⟨⟨v, List.mem_cons_of_mem _ hv, hrv⟩, hxV⟩
    · rw [visitFold, if_neg hw] at h
      cases hft : f w s with
      | none => rw [hft] at h; cases h
      | some t =>
        rw [hft] at h
        have hwV : w ∈ g.V := hl w (List.mem_cons_self _ _)
        have hwst : w ∉ s.stack := fun hc => hw (hs.1 ▸ hc)
        obtain ⟨ht, p1, ht1, ht2, hwp1, hp1⟩ := Hf w s t hft hwV hwst hs
        obtain ⟨hs', hmem, p2, h1, h2, hp2⟩ := ih t s' h (fun v hv => hl v (List.mem_cons_of_mem _ hv)) ht
        refine ⟨hs', ?_, p2 ++ p1, ?_, ?_, ?_⟩
        · intro v hv
          rcases List.mem_cons.mp hv with rfl | hv
          · rw [h2, ht2]
            exact List.mem_append_right p2 (List.mem_append_left _ hwp1)
          · exact hmem v hv
        · rw [h1, ht1, List.append_assoc]
        · rw [h2, ht2, List.append_assoc]
        · intro x hx
          rcases List.mem_append.mp hx with hx2 | hx1
          · obtain ⟨⟨v, hv, hrv⟩, hxV⟩ := hp2 x hx2
            exact ⟨⟨v, List.mem_cons_of_mem _ hv, hrv⟩, hxV⟩
          · obtain ⟨hrw, hxV⟩ := hp1 x hx1
            exact ⟨⟨w, List.mem_cons_self _ _, hrw⟩, hxV⟩

theorem dfs_sound (g : Graph) (r : Nat → Nat)
    (hcl : ∀ u ∈ g.V, ∀ v ∈ g.out u, v ∈ g.V)
    (hr : ∀ u ∈ g.V, ∀ v ∈ g.out u, r u < r v) :
    ∀ fuel u s s', dfs g fuel u s = some s' → u ∈ g.V → u ∉ s.stack → Inv g s →
      DfsPost g r u s s' := by
  intro fuel
  induction fuel with
  | zero => intro u s s' h; simp [dfs] at h
  | succ fuel ih =>
    intro u s s' h hu hus hs
    rw [dfs] at h
    cases hfold : visitFold (fun v t => dfs g fuel v t) (g.out u) s with
    | none => rw [hfold] at h; cases h
    | some t =>
      rw [hfold] at h
      cases h
      obtain ⟨ht, hmem, p, h1, h2, hp⟩ :=
        visitFold_sound g r _ (fun v s1 s1' hv => ih v s1 s1' hv) (g.out u) s t hfold (hcl u hu) hs
      have hunotp : u ∉ p := by
        intro hup
        obtain ⟨⟨v, hv, hrv⟩, _⟩ := hp u hup
        exact absurd (lt_of_lt_of_le (hr u hu v hv) hrv) (lt_irrefl _)
      have hunott : u ∉ t.stack := by
        rw [h2]
        intro hc
        rcases List.mem_append.mp hc with hc | hc
        · exact hunotp hc
        · exact hus hc
      refine ⟨⟨?_, ?_, ?_, ?_⟩, u :: p, ?_, ?_, ?_, ?_⟩
      · show u :: t.visited = u :: t.stack
        rw [ht.1]
      · exact List.nodup_cons.mpr ⟨hunott, ht.2.1⟩
      · exact ⟨fun v hv => hmem v hv, ht.2.2.1⟩
      · intro x hx
        rcases List.mem_cons.mp hx with rfl | hx
        · exact hu
        · exact ht.2.2.2 x hx
      · show u :: t.visited = (u :: p) ++ s.visited
        rw [h1]
        rfl
      · show u :: t.stack = (u :: p) ++ s.stack
        rw [h2]
        rfl
      · exact List.mem_cons_self _ _
      · intro x hx
        rcases List.mem_cons.mp hx with rfl | hx
        · exact ⟨le_refl _, hu⟩
        · obtain ⟨⟨v, hv, hrv⟩, hxV⟩ := hp x hx
          exact ⟨le_of_lt (lt_of_lt_of_le (hr u hu v hv) hrv), hxV⟩

/-- Soundness of the computed order: it has no duplicates, satisfies the
forward-edge position invariant, contains every registered node, and
holds only registered nodes. -/
theorem calc_sound (g : Graph) (r : Nat → Nat)
    (hcl : ∀ u ∈ g.V, ∀ v ∈ g.out u, v ∈ g.V)
    (hr : ∀ u ∈ g.V, ∀ v ∈ g.out u, r u < r v)
    (fuel : Nat) (ord : List Nat)
    (h : g.calc_topological_order fuel = some ord) :
    ord.Nodup ∧ stackClosed g ord ∧ (∀ v ∈ g.V, v ∈ ord) ∧ (∀ x ∈ ord, x ∈ g.V) := by
  rw [Graph.calc_topological_order] at h
  cases hfold : visitFold (fun v t => dfs g fuel v t) g.V ⟨[], []⟩ with
  | none => rw [hfold] at h; cases h
  | some s =>
    rw [hfold] at h
    cases h
    have hInv0 : Inv g ⟨[], []⟩ := ⟨rfl, List.nodup_nil, trivial, by simp⟩
    obtain ⟨hs, hmem, _⟩ := visitFold_sound g r _
      (fun u s1 s1' hu => dfs_sound g r hcl hr fuel u s1 s1' hu) g.V ⟨[], []⟩ s hfold
      (fun v hv => hv) hInv0
    exact ⟨hs.2.1, hs.2.2.1, hmem, hs.2.2.2⟩

theorem visitFold_ok (f : Nat → St → Option St) (Q : Nat → Prop)
    (Hf : ∀ u s, Q u → ∃ s', f u s = some s') :
    ∀ l s, (∀ v ∈ l, Q v) → ∃ s', visitFold f l s = some s' := by
  intro l
  induction l with
  | nil => intro s _; exact ⟨s, rfl⟩
  | cons w ws ih =>
    intro s hl
    by_cases hw : w ∈ s.visited
    · obtain ⟨s', h⟩ := ih s (fun v hv => hl v (List.mem_cons_of_mem _ hv))
      exact ⟨s', by rw [visitFold, if_pos hw]; exact h⟩
    · obtain ⟨t, hft⟩ := Hf w s (hl w (List.mem_cons_self _ _))
      obtain ⟨s', h⟩ := ih t (fun v hv => hl v (List.mem_cons_of_mem _ hv))
      refine ⟨s', ?_⟩
      rw [visitFold, if_neg hw, hft]
      exact h

/-- With fuel at least the rank bound, dfs cannot run out of fuel: along
every output path the rank strictly increases and stays below the bound,
so the recursion depth from a node of rank k is at most B - k. -/
theorem dfs_ok (g : Graph) (r : Nat → Nat) (B : Nat)
    (hcl : ∀ u ∈ g.V, ∀ v ∈ g.out u, v ∈ g.V)
    (hr : ∀ u ∈ g.V, ∀ v ∈ g.out u, r u < r v)
    (hB : ∀ u ∈ g.V, r u < B) :
    ∀ fuel u s, u ∈ g.V → B ≤ fuel + r u → ∃ s', dfs g fuel u s = some s' := by
  intro fuel
  induction fuel with
  | zero =>
    intro u s hu hf
    exact absurd hf (by have := hB u hu; omega)
  | succ fuel ih =>
    intro u s hu hf
    obtain ⟨t, hfold⟩ := visitFold_ok _ (fun v => v ∈ g.V ∧ B ≤ fuel + r v)
      (fun v s1 hq => ih v s1 hq.1 hq.2) (g.out u) s
      (fun v hv => ⟨hcl u hu v hv, by have := hr u hu v hv; omega⟩)
    exact ⟨⟨u :: t.visited, u :: t.stack⟩, by rw [dfs, hfold]⟩

/-- On a graph whose edges admit a rank function bounded by B, the order
computation succeeds with fuel B. -/
theorem calc_ok (g : Graph) (r : Nat → Nat) (B : Nat)
    (hcl : ∀ u ∈ g.V, ∀ v ∈ g.out u, v ∈ g.V)
    (hr : ∀ u ∈ g.V, ∀ v ∈ g.out u, r u < r v)
    (hB : ∀ u ∈ g.V, r u < B) :
    ∃ ord, g.calc_topological_order B = some ord := by
  obtain ⟨s, hfold⟩ := visitFold_ok _ (fun v => v ∈ g.V)
    (fun v s1 hv => dfs_ok g r B hcl hr hB B v s1 hv (Nat.le_add_right B (r v)))
    g.V ⟨[], []⟩ (fun v hv => hv)
  exact ⟨s.stack, by rw [Graph.calc_topological_order, hfold]⟩

/-
Lemmas about the forward evaluation pass.
-/

/-- A forward step writes only the evaluated node's own value attribute. -/
theorem nodeForward_frame (g : Graph) (i : Nat) (val val' : Nat → Option Int)
    (h : nodeForward g i val = .ok val') : ∀ j, j ≠ i → val' j = val j := by
  intro j hj
  rw [nodeForward] at h
  split at h
  · injection h with h2
    rw [← h2]
  · injection h with h2
    rw [← h2]
  · split at h
    · split at h
      · injection h with h2
        rw [← h2]
        simp [hj]
      · exact Except.noConfusion h
    · exact Except.noConfusion h
  · split at h
    · split at h
      · injection h with h2
        rw [← h2]
        simp [hj]
      · exact Except.noConfusion h
    · exact Except.noConfusion h

/-- The forward step of a leaf node is the inherited no-op Node.forward. -/
theorem nodeForward_leaf (g : Graph) (i : Nat) (val : Nat → Option Int)
    (h : isBinaryOperation (g.kind i) = false) : nodeForward g i val = .ok val := by
  rw [nodeForward]
  cases hk : g.kind i
  · rfl
  · rfl
  · rw [hk] at h
    exact absurd h (by simp [isBinaryOperation])
  · rw [hk] at h
    exact absurd h (by simp [isBinaryOperation])

/-- An operation node whose input value is still None fails its forward
step with the TypeError raised by None in arithmetic. -/
theorem nodeForward_err_missing (g : Graph) (i a b : Nat) (tl : List Nat)
    (val : Nat → Option Int)
    (hop : isBinaryOperation (g.kind i) = true)
    (hin : g.inputs i = a :: b :: tl)
    (hmiss : val a = none ∨ val b = none) :
    nodeForward g i val = .error .typeError := by
  cases hk : g.kind i <;> rw [hk] at hop
  · exact absurd hop (by simp [isBinaryOperation])
  · exact absurd hop (by simp [isBinaryOperation])
  · rcases hmiss with hm | hm
    · cases hvb : val b <;> simp [nodeForward, hk, hin, hm, hvb]
    · cases hva : val a <;> simp [nodeForward, hk, hin, hva, hm]
  · rcases hmiss with hm | hm
    · cases hvb : val b <;> simp [nodeForward, hk, hin, hm, hvb]
    · cases hva : val a <;> simp [nodeForward, hk, hin, hva, hm]

/-- On a node whose input_lst has the length the constructor guarantees,
the only possible forward-step failure is the TypeError from a missing
input value. -/
theorem nodeForward_err_kind (g : Graph) (i : Nat) (val : Nat → Option Int) (e : PyErr)
    (hwf : isBinaryOperation (g.kind i) = true → (g.inputs i).length = 2)
    (h : nodeForward g i val = .error e) : e = .typeError := by
  cases hk : g.kind i
  · simp only [nodeForward, hk] at h
    exact Except.noConfusion h
  · simp only [nodeForward, hk] at h
    exact Except.noConfusion h
  · obtain ⟨a, b, hab⟩ := List.length_eq_two.mp (hwf (by rw [hk]; rfl))
    cases hva : val a <;> cases hvb : val b <;>
        simp only [nodeForward, hk, hab, hva, hvb] at h
    all_goals
      first
      | (injection h with h2; exact h2.symm)
      | exact Except.noConfusion h
  · obtain ⟨a, b, hab⟩ := List.length_eq_two.mp (hwf (by rw [hk]; rfl))
    cases hva : val a <;> cases hvb : val b <;>
        simp only [nodeForward, hk, hab, hva, hvb] at h
    all_goals
      first
      | (injection h with h2; exact h2.symm)
      | exact Except.noConfusion h

/-- Success of the whole evaluation loop: with a sound order, mirrored
edges, well-formed operation nodes and all leaf values set, every node
evaluates (its inputs were evaluated at strictly earlier positions), no
exception is raised, and afterwards every node of the order carries a
value. -/
theorem runForwardNodes_ok (g : Graph) (ord : List Nat)
    (hnd : ord.Nodup) (hsc : stackClosed g ord)
    (hsub : ∀ x ∈ ord, x ∈ g.V) (hall : ∀ v ∈ g.V, v ∈ ord)
    (hio : ∀ c ∈ g.V, ∀ a ∈ g.inputs c, a ∈ g.V ∧ c ∈ g.out a)
    (hwf : ∀ c ∈ g.V, isBinaryOperation (g.kind c) = true → (g.inputs c).length = 2) :
    ∀ rest done val, ord = done ++ rest →
      (∀ x ∈ done, (val x).isSome) →
      (∀ u ∈ g.V, isBinaryOperation (g.kind u) = false → (val u).isSome) →
      ∃ val', runForwardNodes g rest val = (val', none) ∧ ∀ x ∈ ord, (val' x).isSome := by
  intro rest
  induction rest with
  | nil =>
    intro done val hsplit hdone _
    have hde : done = ord := by rw [hsplit, List.append_nil]
    exact ⟨val, rfl, fun x hx => hdone x (hde ▸ hx)⟩
  | cons i rest' ih =>
    intro done val hsplit hdone hleafinv
    have hiord : i ∈ ord := by
      rw [hsplit]
      exact List.mem_append_right done (List.mem_cons_self _ _)
    have hiV : i ∈ g.V := hsub i hiord
    have hnd2 : (i :: rest').Nodup := by
      rw [hsplit] at hnd
      exact hnd.of_append_right
    have hsc2 : stackClosed g (i :: rest') := by
      rw [hsplit] at hsc
      exact stackClosed_of_append g done _ hsc
    have hinotdone : i ∉ done := by
      rw [hsplit] at hnd
      exact fun hc => List.disjoint_of_nodup_append hnd hc (List.mem_cons_self _ _)
    have hsplit' : ord = (done ++ [i]) ++ rest' := by simp [hsplit]
    cases hop : isBinaryOperation (g.kind i) with
    | false =>
      have hstep := nodeForward_leaf g i val hop
      have hvali : (val i).isSome := hleafinv i hiV hop
      obtain ⟨val', hrun, hord⟩ := ih (done ++ [i]) val hsplit'
        (fun x hx => by
          rcases List.mem_append.mp hx with hx | hx
          · exact hdone x hx
          · rw [List.mem_singleton.mp hx]
            exact hvali)
        hleafinv
      exact ⟨val', by rw [runForwardNodes, hstep]; exact hrun, hord⟩
    | true =>
      obtain ⟨a, b, hab⟩ := List.length_eq_two.mp (hwf i hiV hop)
      have hax := hio i hiV a (by rw [hab]; exact List.mem_cons_self _ _)
      have hbx := hio i hiV b (by rw [hab]; simp)
      have hmemdone : ∀ w, w ∈ g.V → i ∈ g.out w → w ∈ done := by
        intro w hwV hwout
        rcases List.mem_append.mp (by rw [← hsplit]; exact hall w hwV) with h | h
        · exact h
        · exact (stackClosed_not_out_of_later g hnd2 hsc2 h hwout).elim
      have hadone : a ∈ done := hmemdone a hax.1 hax.2
      have hbdone : b ∈ done := hmemdone b hbx.1 hbx.2
      obtain ⟨x, hva⟩ := Option.isSome_iff_exists.mp (hdone a hadone)
      obtain ⟨y, hvb⟩ := Option.isSome_iff_exists.mp (hdone b hbdone)
      have hkinds : g.kind i = .add ∨ g.kind i = .mul := by
        cases hk : g.kind i
        · rw [hk] at hop
          exact absurd hop (by simp [isBinaryOperation])
        · rw [hk] at hop
          exact absurd hop (by simp [isBinaryOperation])
        · exact Or.inl rfl
        · exact Or.inr rfl
      have hstep : ∃ z : Int, nodeForward g i val = .ok (fun j => if j = i then some z else val j) := by
        rcases hkinds with hk | hk
        · exact ⟨x + y, by simp [nodeForward, hk, hab, hva, hvb]⟩
        · exact ⟨x * y, by simp [nodeForward, hk, hab, hva, hvb]⟩
      obtain ⟨z, hstep⟩ := hstep
      obtain ⟨val', hrun, hord⟩ := ih (done ++ [i]) (fun j => if j = i then some z else val j) hsplit'
        (fun x' hx' => by
          rcases List.mem_append.mp hx' with hx' | hx'
          · have hxi : x' ≠ i := fun hc => hinotdone (hc ▸ hx')
            simp only [if_neg hxi]
            exact hdone x' hx'
          · rw [List.mem_singleton.mp hx']
            simp)
        (fun u huV hu => by
          have hui : u ≠ i := by
            intro hc
            rw [hc, hop] at hu
            exact Bool.noConfusion hu
          simp only [if_neg hui]
          exact hleafinv u huV hu)
      exact ⟨val', by rw [runForwardNodes, hstep]; exact hrun, hord⟩

/-- If some operation node of the remaining order consumes a leaf whose
value is still None, the evaluation loop raises TypeError: the value
store never acquires a value at the leaf, so at the latest that consumer
fails, and under well-formed operation nodes no other error kind can
preempt it. -/
theorem runForwardNodes_missing (g : Graph) (leaf : Nat)
    (hleafkind : isBinaryOperation (g.kind leaf) = false) :
    ∀ rest val, (∀ i ∈ rest, isBinaryOperation (g.kind i) = true → (g.inputs i).length = 2) →
      val leaf = none →
      ∀ c ∈ rest, isBinaryOperation (g.kind c) = true → leaf ∈ g.inputs c →
      (runForwardNodes g rest val).2 = some .typeError := by
  intro rest
  induction rest with
  | nil =>
    intro val _ _ c hc
    cases hc
  | cons i rest' ih =>
    intro val hwfl hleaf c hc hcop hcin
    cases hstep : nodeForward g i val with
    | error e =>
      have he : e = .typeError :=
        nodeForward_err_kind g i val e (hwfl i (List.mem_cons_self _ _)) hstep
      rw [runForwardNodes, hstep, he]
    | ok val2 =>
      have hleaf2 : val2 leaf = none := by
        by_cases hleafi : leaf = i
        · rw [hleafi] at hleafkind
          rw [nodeForward_leaf g i val hleafkind] at hstep
          injection hstep with h2
          rw [← h2]
          exact hleaf
        · rw [nodeForward_frame g i val val2 hstep leaf hleafi]
          exact hleaf
      rcases List.mem_cons.mp hc with heq | hc
      · -- the consumer is evaluated right now, so this step cannot have
        -- succeeded: its value read of the leaf returns None
        obtain ⟨a, b, hab⟩ :=
          List.length_eq_two.mp (hwfl i (List.mem_cons_self _ _) (heq ▸ hcop))
        have hmiss : val a = none ∨ val b = none := by
          have hin2 : leaf ∈ g.inputs i := heq ▸ hcin
          rw [hab] at hin2
          rcases List.mem_cons.mp hin2 with h1 | h1
          · exact Or.inl (by rw [← h1]; exact hleaf)
          · rcases List.mem_cons.mp h1 with h2 | h2
            · exact Or.inr (by rw [← h2]; exact hleaf)
            · cases h2
        rw [nodeForward_err_missing g i a b [] val (heq ▸ hcop) hab hmiss] at hstep
        exact Except.noConfusion hstep
      · rw [runForwardNodes, hstep]
        exact ih val2 (fun j hj => hwfl j (List.mem_cons_of_mem _ hj)) hleaf2 c hc hcop hcin

/-- Shape of Graph.forward when the order is computed fresh and the
evaluation loop raises: the state keeps the values written so far and the
freshly stored order, and the exception propagates. -/
theorem forward_err_run (g : Graph) (fuel : Nat) (st : PyState) (l : List Nat)
    (val' : Nat → Option Int) (e : PyErr)
    (h0 : st.order = none) (hc : g.calc_topological_order fuel = some l)
    (hrun : runForwardNodes g l st.value = (val', some e)) :
    Graph.forward g fuel st = (⟨val', st.deriv, some l⟩, .error e) := by
  rw [Graph.forward, h0]
  simp only [orderTruthy, Bool.false_eq_true, if_false, hc, hrun]

/-- Shape of Graph.forward when the order is computed fresh and the
evaluation loop succeeds on a nonempty order: the returned Python value
is the final value attribute of the last node of the order. -/
theorem forward_ok_run (g : Graph) (fuel : Nat) (st : PyState) (l : List Nat)
    (val' : Nat → Option Int) (root : Nat)
    (h0 : st.order = none) (hc : g.calc_topological_order fuel = some l)
    (hrun : runForwardNodes g l st.value = (val', none))
    (hlast : l.getLast? = some root) :
    Graph.forward g fuel st = (⟨val', st.deriv, some l⟩, .ok (val' root)) := by
  rw [Graph.forward, h0]
  simp only [orderTruthy, Bool.false_eq_true, if_false, hc, hrun, hlast]

/-- After the order of a nonempty graph has been stored, every append
raises the frozen-graph ValueError. -/
theorem append_frozen (g : Graph) (st : PyState) (l : List Nat) (i : Nat)
    (h : st.order = some l) (hne : l ≠ []) :
    Graph.append g st i = .error (.valueError "Cannot add extra node after building the graph") := by
  cases l with
  | nil => exact absurd rfl hne
  | cons x xs => rw [Graph.append, h]; rfl

/-
Lemmas about the backward pass.
-/

/-- One chain-rule step of an operation node with input_lst = [a, b]
(a = b allowed, as with MultiplyOperation(x, x)), with the node distinct
from its inputs (guaranteed by construction: an operation's inputs exist
before it) and its own derivative set: both inputs receive exactly
partial * derivative by direct assignment, whatever derivatives they held
before. -/
theorem backwardStep_pair (g : Graph) (val : Nat → Option Int) (i a b : Nat)
    (deriv : Nat → Option Int) (d pa pb : Int)
    (hin : g.inputs i = [a, b]) (hia : i ≠ a) (_hib : i ≠ b)
    (hd : deriv i = some d)
    (hpa : partial_derivative g val i a = .ok (some pa))
    (hpb : partial_derivative g val i b = .ok (some pb)) :
    ∃ deriv', BinaryOperation.backward g val i deriv = (deriv', none) ∧
      deriv' a = some (pa * d) ∧ deriv' b = some (pb * d) := by
  have h1 : backwardAssign g val i deriv a =
      ((fun j => if j = a then some (pa * d) else deriv j), none) := by
    simp only [backwardAssign, hpa, hd]
  have h2 : backwardAssign g val i (fun j => if j = a then some (pa * d) else deriv j) b =
      ((fun j => if j = b then some (pb * d) else if j = a then some (pa * d) else deriv j),
        none) := by
    simp only [backwardAssign, hpb, if_neg hia, hd]
  refine ⟨fun j => if j = b then some (pb * d) else if j = a then some (pa * d) else deriv j,
    ?_, ?_, ?_⟩
  · simp only [BinaryOperation.backward, hin, backwardStepLoop, h1, h2]
  · by_cases hba : a = b
    · have hpab : pa = pb := by
        rw [hba, hpb] at hpa
        injection hpa with h3
        injection h3 with h4
        exact h4.symm
      simp [hba, hpab]
    · simp [hba]
  · simp

/-- The partial derivative of MultiplyOperation(x, x) with respect to x:
the object-identity comparison node == input_lst[1] succeeds, so the
returned factor is input_lst[0].value, i.e. x.value once, not 2 * x.value. -/
theorem partial_derivative_mul_self (g : Graph) (val : Nat → Option Int) (i x : Nat)
    (hk : g.kind i = .mul) (hin : g.inputs i = [x, x]) :
    partial_derivative g val i x = .ok (val x) := by
  simp [partial_derivative, hk, hin]

/-- A nonempty chain of consumer edges: each step goes from a node to an
operation node of the graph listing it in input_lst.  A leaf being
(properly) reachable from the root means such a chain from the leaf to
the root exists. -/
inductive ConsPath (g : Graph) : Nat → Nat → Prop where
  | single (x y : Nat) : y ∈ g.V → isBinaryOperation (g.kind y) = true →
      x ∈ g.inputs y → ConsPath g x y
  | step (x y z : Nat) : y ∈ g.V → isBinaryOperation (g.kind y) = true →
      x ∈ g.inputs y → ConsPath g y z → ConsPath g x z

/-- The first edge of a consumer chain yields a registered operation node
consuming the chain's source. -/
theorem ConsPath.head (g : Graph) {x z : Nat} (h : ConsPath g x z) :
    ∃ c ∈ g.V, isBinaryOperation (g.kind c) = true ∧ x ∈ g.inputs c := by
  cases h with
  | single _ _ hy hk hx => exact ⟨_, hy, hk, hx⟩
  | step _ y _ hy hk hx _ => exact ⟨y, hy, hk, hx⟩

/-- Multi-sink graph: 0 = a, 1 = b (Variables), 2 = AddOperation(a, b),
then one further Variable 3 registered last.  Both 2 and 3 are sinks. -/
def gMS : Graph where
  V := [0, 1, 2, 3]
  kind := fun i =>
    match i with
    | 2 => .add
    | _ => .var
  inputs := fun i =>
    match i with
    | 2 => [0, 1]
    | _ => []
  out := fun i =>
    match i with
    | 0 => [2]
    | 1 => [2]
    | _ => []

/-- State of gMS with a = 1, b = 1 and the last Variable set to 99. -/
def stMS : PyState where
  value := fun i =>
    match i with
    | 0 => some 1
    | 1 => some 1
    | 3 => some 99
    | _ => none
  deriv := fun _ => none
  order := none

/-- Two mutually dependent operation nodes (each indirectly its own
input): the edge relation 0 ↔ 1 is a cycle.  Not constructible through
the constructors, obtained by mutating the edge lists, exactly the
situation the cycle-rejection requirement speaks about. -/
def gCyc : Graph where
  V := [0, 1]
  kind := fun _ => .add
  inputs := fun i =>
    match i with
    | 0 => [1, 1]
    | 1 => [0, 0]
    | _ => []
  out := fun i =>
    match i with
    | 0 => [1, 1]
    | 1 => [0, 0]
    | _ => []

/-- State of gCyc before any pass. -/
def stCyc : PyState where
  value := fun _ => some 1
  deriv := fun _ => none
  order := none

/-- A graph with no registered node. -/
def gEmpty : Graph where
  V := []
  kind := fun _ => .var
  inputs := fun _ => []
  out := fun _ => []

/-- Fresh state of the empty graph. -/
def stEmpty : PyState where
  value := fun _ => none
  deriv := fun _ => none
  order := none

/-- Squaring graph: 0 = x (Variable), 1 = MultiplyOperation(x, x). -/
def gSq : Graph where
  V := [0, 1]
  kind := fun i =>
    match i with
    | 1 => .mul
    | _ => .var
  inputs := fun i =>
    match i with
    | 1 => [0, 0]
    | _ => []
  out := fun i =>
    match i with
    | 0 => [1, 1]
    | _ => []

/-- State of gEx in which c (node 2) was never given a value. -/
def stMiss : PyState where
  value := fun i =>
    match i with
    | 0 => some 5
    | 1 => some 3
    | 3 => some 3
    | _ => none
  deriv := fun _ => none
  order := none

/-- On the two-node cycle the dfs runs out of any amount of fuel: along
the cycle no node is ever marked visited (marking happens only after the
recursion returns), so each level recurses again. -/
theorem dfs_gCyc_none :
    ∀ fuel, dfs gCyc fuel 0 ⟨[], []⟩ = none ∧ dfs gCyc fuel 1 ⟨[], []⟩ = none := by
  intro fuel
  induction fuel with
  | zero => exact ⟨rfl, rfl⟩
  | succ fuel ih =>
    constructor
    · have h1 := ih.2
      simp only [dfs]
      rw [show gCyc.out 0 = [1, 1] from rfl]
      simp [visitFold, h1]
    · have h0 := ih.1
      simp only [dfs]
      rw [show gCyc.out 1 = [0, 0] from rfl]
      simp [visitFold, h0]

/-
Claim theorems.
-/

/-- C1: for every graph whose registered edge relation is acyclic (here
witnessed, as for any finite DAG, by a rank function r bounded by B that
strictly increases along every registered producer-to-consumer edge,
with edges staying inside the registered nodes), _calc_topological_order
succeeds and in the computed Graph.order every registered edge
producer -> consumer has the producer at a strictly earlier position than
the consumer. -/
theorem claim_C1_topological_order (g : Graph) (r : Nat → Nat) (B : Nat)
    (hcl : ∀ u ∈ g.V, ∀ v ∈ g.out u, v ∈ g.V)
    (hr : ∀ u ∈ g.V, ∀ v ∈ g.out u, r u < r v)
    (hB : ∀ u ∈ g.V, r u < B) :
    ∃ ord, g.calc_topological_order B = some ord ∧
      ∀ u ∈ g.V, ∀ v ∈ g.out u, ord.indexOf u < ord.indexOf v := by
  obtain ⟨ord, hord⟩ := calc_ok g r B hcl hr hB
  obtain ⟨hnd, hsc, hall, _⟩ := calc_sound g r hcl hr B ord hord
  exact ⟨ord, hord, fun u hu v hv => stackClosed_indexOf g hnd hsc (hall u hu) hv⟩

/-- Witness for C1 on the demo graph with the identity rank function. -/
theorem claim_C1_witness :
    ∃ ord, gEx.calc_topological_order 7 = some ord ∧
      ∀ u ∈ gEx.V, ∀ v ∈ gEx.out u, ord.indexOf u < ord.indexOf v :=
  claim_C1_topological_order gEx rEx 7 (by decide) (by decide) (by decide)

/-- C2: on the literal demo graph u = b*c, v = a+u, J = d*v with a = 5,
b = 3, c = 2, d = 3, forward() returns 33 and after backward() the
derivatives are a: 3, b: 6, c: 9, d: 11. -/
theorem claim_C2_end_to_end :
    (Graph.forward gEx 10 stEx).2 = .ok (some 33) ∧
    (Graph.backward gEx (Graph.forward gEx 10 stEx).1).2 = none ∧
    (Graph.backward gEx (Graph.forward gEx 10 stEx).1).1.deriv 0 = some 3 ∧
    (Graph.backward gEx (Graph.forward gEx 10 stEx).1).1.deriv 1 = some 6 ∧
    (Graph.backward gEx (Graph.forward gEx 10 stEx).1).1.deriv 2 = some 9 ∧
    (Graph.backward gEx (Graph.forward gEx 10 stEx).1).1.deriv 3 = some 11 := by
  decide

/-- C3: one invocation of the shared chain-rule step of a binary
operation node whose own derivative is set assigns to each input node n
exactly partial_derivative(n) * self.derivative, by direct assignment:
the resulting derivatives do not depend on the derivatives the inputs
held before (the statement holds for every prior derivative store).  The
hypotheses i distinct from a, b reflect that an operation's inputs are
constructed before it. -/
theorem claim_C3_chain_rule (g : Graph) (val deriv : Nat → Option Int) (i a b : Nat)
    (d pa pb : Int)
    (hin : g.inputs i = [a, b]) (hia : i ≠ a) (hib : i ≠ b)
    (hd : deriv i = some d)
    (hpa : partial_derivative g val i a = .ok (some pa))
    (hpb : partial_derivative g val i b = .ok (some pb)) :
    ∃ deriv', BinaryOperation.backward g val i deriv = (deriv', none) ∧
      deriv' a = some (pa * d) ∧ deriv' b = some (pb * d) :=
  backwardStep_pair g val i a b deriv d pa pb hin hia hib hd hpa hpb

/-- Witness for C3: the chain-rule step of J = MultiplyOperation(d, v) in
the demo graph, with every node's prior derivative set to 42 to exhibit
the overwrite. -/
theorem claim_C3_witness :
    ∃ deriv', BinaryOperation.backward gEx (fun j => if j = 5 then some 11 else some 3) 6
        (fun _ => some 42) = (deriv', none) ∧
      deriv' 3 = some (11 * 42) ∧ deriv' 5 = some (3 * 42) :=
  claim_C3_chain_rule gEx (fun j => if j = 5 then some 11 else some 3) (fun _ => some 42)
    6 3 5 42 11 3 (by decide) (by decide) (by decide) (by decide) (by decide) (by decide)

/-- C4 (refuting evaluation): on the empty graph, forward() computes and
stores the order [] (and then raises IndexError), yet the subsequent
append succeeds, because the frozen-graph guard is the Python truthiness
test `if self.order:` and the computed empty order is falsy.  The claim
demands the frozen-graph ValueError for every graph, every time. -/
theorem claim_C4_frozen_graph_bug :
    (Graph.forward gEmpty 5 stEmpty).1.order = some [] ∧
    (Graph.forward gEmpty 5 stEmpty).2 = .error .indexError ∧
    Graph.append gEmpty (Graph.forward gEmpty 5 stEmpty).1 7 = .ok [7] := by
  decide

/-- C5 (refuting evaluation): on a graph whose edge relation has a cycle
the dfs of _calc_topological_order recurses without bound: whatever the
remaining recursion budget, forward() ends in RecursionError.  The code
has no cycle check at all (PyErr has no cycle-error constructor to
raise), contradicting the required explicit bounded-steps cycle error. -/
theorem claim_C5_cycle_unbounded :
    ∀ fuel, Graph.forward gCyc fuel stCyc = (stCyc, .error .recursionError) := by
  intro fuel
  have hcalc : gCyc.calc_topological_order fuel = none := by
    rw [Graph.calc_topological_order]
    have h0 := (dfs_gCyc_none fuel).1
    rw [show gCyc.V = [0, 1] from rfl]
    simp [visitFold, h0]
  rw [Graph.forward]
  rw [show stCyc.order = none from rfl]
  simp only [orderTruthy, Bool.false_eq_true, if_false, hcalc]

/-- Witness for C5 at a concrete fuel amount. -/
theorem claim_C5_witness :
    Graph.forward gCyc 3 stCyc = (stCyc, .error .recursionError) :=
  claim_C5_cycle_unbounded 3

/-- C6 (refuting evaluation): when no forward pass has happened
(self.order is still None), backward() reaches
self.order[-1].derivative = 1 and subscripts None, raising TypeError.
There is no precondition check, contradicting the required explicit
backward-before-forward error. -/
theorem claim_C6_backward_before_forward (g : Graph) (st : PyState)
    (h : st.order = none) : Graph.backward g st = (st, some .typeError) := by
  rw [Graph.backward, h]

/-- Witness for C6 on the freshly built demo graph. -/
theorem claim_C6_witness : Graph.backward gEx stEx = (stEx, some .typeError) :=
  claim_C6_backward_before_forward gEx stEx rfl

/-- C7: on an acyclic graph with well-formed operation nodes, if a leaf
node reachable from the designated root through at least one consumer
edge has no value, forward() fails with the TypeError raised when the
missing value meets the arithmetic of the consuming operation, rather
than returning a result. -/
theorem claim_C7_uninitialized_input (g : Graph) (r : Nat → Nat) (B : Nat)
    (st0 : PyState) (leaf root : Nat)
    (hcl : ∀ u ∈ g.V, ∀ v ∈ g.out u, v ∈ g.V)
    (hr : ∀ u ∈ g.V, ∀ v ∈ g.out u, r u < r v)
    (hB : ∀ u ∈ g.V, r u < B)
    (hwf : ∀ c ∈ g.V, isBinaryOperation (g.kind c) = true → (g.inputs c).length = 2)
    (_hroot : g.V.getLast? = some root)
    (hpath : ConsPath g leaf root)
    (hleafkind : isBinaryOperation (g.kind leaf) = false)
    (hmiss : st0.value leaf = none)
    (h0 : st0.order = none) :
    (Graph.forward g B st0).2 = .error .typeError := by
  obtain ⟨ord, hord⟩ := calc_ok g r B hcl hr hB
  obtain ⟨hnd, hsc, hall, hsub⟩ := calc_sound g r hcl hr B ord hord
  obtain ⟨c, hcV, hcop, hcin⟩ := ConsPath.head g hpath
  have hrun := runForwardNodes_missing g leaf hleafkind ord st0.value
    (fun i hi => hwf i (hsub i hi)) hmiss c (hall c hcV) hcop hcin
  rcases hrunpair : runForwardNodes g ord st0.value with ⟨val', e?⟩
  rw [hrunpair] at hrun
  have he : e? = some PyErr.typeError := hrun
  rw [he] at hrunpair
  rw [forward_err_run g B st0 ord val' .typeError h0 hord hrunpair]

/-- Witness for C7: the demo graph with c (node 2) never set; the path
c -> u -> v -> J reaches the root. -/
theorem claim_C7_witness : (Graph.forward gEx 7 stMiss).2 = .error .typeError :=
  claim_C7_uninitialized_input gEx rEx 7 stMiss 2 6 (by decide) (by decide) (by decide)
    (by decide) (by decide)
    (.step 2 4 6 (by decide) (by decide) (by decide)
      (.step 4 5 6 (by decide) (by decide) (by decide)
        (.single 5 6 (by decide) (by decide) (by decide))))
    (by decide) (by decide) rfl

/-- C8 (refuting evaluation): a graph with two sinks.  All reachable
leaves have values, forward() succeeds, but it returns the value 2 of the
first-finished sink (node 2, the AddOperation), not the value 99 of the
last-registered node 3: the order's last element is the first sink the
DFS reaches, which need not be the last-registered node. -/
theorem claim_C8_counterexample :
    gMS.V.getLast? = some 3 ∧
    (Graph.forward gMS 10 stMS).2 = .ok (some 2) ∧
    (Graph.forward gMS 10 stMS).1.value 3 = some 99 := by
  decide

/-- C8 as amended: on an acyclic graph with mirrored, well-formed edges,
all leaf values set, and whose last-registered node is its unique sink
(no other registered node lacks consumers — automatic whenever every
other node feeds the root), forward() succeeds and returns precisely the
final value of that last-registered root node. -/
theorem claim_C8_root_value (g : Graph) (r : Nat → Nat) (B : Nat) (st0 : PyState)
    (root : Nat)
    (hcl : ∀ u ∈ g.V, ∀ v ∈ g.out u, v ∈ g.V)
    (hr : ∀ u ∈ g.V, ∀ v ∈ g.out u, r u < r v)
    (hB : ∀ u ∈ g.V, r u < B)
    (hio : ∀ c ∈ g.V, ∀ a ∈ g.inputs c, a ∈ g.V ∧ c ∈ g.out a)
    (hwf : ∀ c ∈ g.V, isBinaryOperation (g.kind c) = true → (g.inputs c).length = 2)
    (hleaf : ∀ u ∈ g.V, isBinaryOperation (g.kind u) = false → (st0.value u).isSome)
    (hroot : g.V.getLast? = some root)
    (hsink : ∀ u ∈ g.V, g.out u = [] → u = root)
    (h0 : st0.order = none) :
    ∃ v : Int, (Graph.forward g B st0).2 = .ok (some v) ∧
      (Graph.forward g B st0).1.value root = some v := by
  obtain ⟨ord, hord⟩ := calc_ok g r B hcl hr hB
  obtain ⟨hnd, hsc, hall, hsub⟩ := calc_sound g r hcl hr B ord hord
  obtain ⟨val', hrun, hvals⟩ :=
    runForwardNodes_ok g ord hnd hsc hsub hall hio hwf ord [] st0.value rfl
      (by simp) hleaf
  have hVne : g.V ≠ [] := by
    intro hc
    rw [hc] at hroot
    exact Option.noConfusion hroot
  have hrootV : root ∈ g.V := by
    have h1 := List.getLast?_eq_getLast_of_ne_nil hVne
    rw [hroot] at h1
    injection h1 with h2
    rw [h2]
    exact List.getLast_mem hVne
  have hrootord : root ∈ ord := hall root hrootV
  have hne : ord ≠ [] := fun hc => by
    rw [hc] at hrootord
    cases hrootord
  cases hlast : ord.getLast? with
  | none => exact absurd (List.getLast?_eq_none_iff.mp hlast) hne
  | some z =>
    have hzord : z ∈ ord := by
      have h1 := List.getLast?_eq_getLast_of_ne_nil hne
      rw [hlast] at h1
      injection h1 with h2
      rw [h2]
      exact List.getLast_mem hne
    have hzroot : z = root := hsink z (hsub z hzord) (stackClosed_getLast g hsc hlast)
    obtain ⟨v, hv⟩ := Option.isSome_iff_exists.mp (hvals z hzord)
    refine ⟨v, ?_, ?_⟩
    · rw [forward_ok_run g B st0 ord val' z h0 hord hrun hlast]
      rw [hv]
    · rw [forward_ok_run g B st0 ord val' z h0 hord hrun hlast]
      show val' root = some v
      rw [← hzroot]
      exact hv

/-- Witness for the amended C8 on the demo graph, whose last-registered
node J is its unique sink. -/
theorem claim_C8_witness :
    ∃ v : Int, (Graph.forward gEx 7 stEx).2 = .ok (some v) ∧
      (Graph.forward gEx 7 stEx).1.value 6 = some v :=
  claim_C8_root_value gEx rEx 7 stEx 6 (by decide) (by decide) (by decide) (by decide)
    (by decide) (by decide) (by decide) (by decide) rfl

/-- C9: Graph.backward never touches any node's value attribute (nor the
stored order): whatever state it runs in and whether or not it raises,
the value store of the resulting state is exactly the input one.  The
backward pass writes only derivative attributes. -/
theorem claim_C9_backward_frame (g : Graph) (st : PyState) :
    (Graph.backward g st).1.value = st.value ∧ (Graph.backward g st).1.order = st.order := by
  cases h : st.order with
  | none => simp [Graph.backward, h]
  | some l =>
    cases l with
    | nil => simp [Graph.backward, h]
    | cons x xs => simp [Graph.backward, h]

/-- Witness for C9 after a real forward pass on the demo graph. -/
theorem claim_C9_witness :
    (Graph.backward gEx (Graph.forward gEx 10 stEx).1).1.value =
      (Graph.forward gEx 10 stEx).1.value ∧
    (Graph.backward gEx (Graph.forward gEx 10 stEx).1).1.order =
      (Graph.forward gEx 10 stEx).1.order :=
  claim_C9_backward_frame gEx (Graph.forward gEx 10 stEx).1

/-- C10: for MultiplyOperation(x, x), partial_derivative(x) returns
x.value (input_lst[0].value, the single-path partial), and one chain-rule
step leaves x.derivative = x.value * self.derivative — the second loop
iteration overwrites the first with the same value, so the factor 2 of
the mathematically summed derivative never appears. -/
theorem claim_C10_repeated_input (g : Graph) (val deriv : Nat → Option Int)
    (i x : Nat) (xv d : Int)
    (hk : g.kind i = .mul) (hin : g.inputs i = [x, x]) (hix : i ≠ x)
    (hv : val x = some xv) (hd : deriv i = some d) :
    partial_derivative g val i x = .ok (some xv) ∧
    ∃ deriv', BinaryOperation.backward g val i deriv = (deriv', none) ∧
      deriv' x = some (xv * d) := by
  have hp : partial_derivative g val i x = .ok (some xv) := by
    rw [partial_derivative_mul_self g val i x hk hin, hv]
  refine ⟨hp, ?_⟩
  obtain ⟨deriv', h1, h2, _⟩ := backwardStep_pair g val i x x deriv d xv xv hin hix hix hd hp hp
  exact ⟨deriv', h1, h2⟩

/-- Witness for C10 on the squaring graph x = 7, with the operation's
derivative seeded to 2: the derivative of x becomes 14, not 28. -/
theorem claim_C10_witness :
    partial_derivative gSq (fun j => if j = 0 then some 7 else none) 1 0 = .ok (some 7) ∧
    ∃ deriv', BinaryOperation.backward gSq (fun j => if j = 0 then some 7 else none) 1
        (fun j => if j = 1 then some 2 else none) = (deriv', none) ∧
      deriv' 0 = some (7 * 2) :=
  claim_C10_repeated_input gSq (fun j => if j = 0 then some 7 else none)
    (fun j => if j = 1 then some 2 else none) 1 0 7 2 (by decide) (by decide) (by decide)
    (by decide) (by decide)

end CompGraph
